import Mathlib

/-!
Verification of the pileup and modification-calling engine of
`aligned_bam_to_cpg_scores.py` (pb-CpG-tools).

The Python source is shallowly embedded: strings handled by the tag decoder
are `List Char`, Python ints are `Nat`/`Int`, probabilities are exact
rationals `ℚ`, Python `round(x, n)` (round half to even at a decimal
position; the floats produced by the script at the rounding sites are exact
dyadic rationals, so decimal half-even rounding is the exact semantics) is
`pyRound`, exceptions are `Option` with `none` for a raised error, and the
Python `dict` built by `pileup_from_reads` is represented by the list of
(key, value-entry) insertion events it is built from.
-/

/-- Round a rational to the nearest integer, ties to even
(the rounding mode of Python `round`). -/
def roundHalfEven (q : ℚ) : ℤ :=
  let f := ⌊q⌋
  if (1 : ℚ) / 2 < q - f then f + 1
  else if q - f < 1 / 2 then f
  else if f % 2 = 0 then f else f + 1

/-- Python `round(q, p)`: round to `p` decimal digits, ties to even. -/
def pyRound (q : ℚ) (p : ℕ) : ℚ :=
  (roundHalfEven (q * (10 : ℚ) ^ p) : ℚ) / (10 : ℚ) ^ p

/-- Python `str.split(sep)` for a single-character separator over `List Char`. -/
def splitOnChar (sep : Char) : List Char → List (List Char)
  | [] => [[]]
  | c :: rest =>
    if c = sep then [] :: splitOnChar sep rest
    else
      match splitOnChar sep rest with
      | h :: t => (c :: h) :: t
      | [] => [[c]]

/-- Python `str.replace(pat, '')` for a nonempty pattern `p :: ps`:
remove all (leftmost, non-overlapping) occurrences of the pattern.  The
fuel argument only bounds the recursion depth; each step consumes at
least one character, so with the fuel `l.length` supplied by `removeAll`
the fuel-exhausted branch is unreachable. -/
def removeAllGo (p : Char) (ps : List Char) : Nat → List Char → List Char
  | 0, l => l
  | _ + 1, [] => []
  | fuel + 1, c :: rest =>
    if (p :: ps).isPrefixOf (c :: rest) then removeAllGo p ps fuel (rest.drop ps.length)
    else c :: removeAllGo p ps fuel rest

/-- Python `str.replace(pat, '')` for the nonempty pattern `p :: ps`. -/
def removeAll (p : Char) (ps : List Char) (l : List Char) : List Char :=
  removeAllGo p ps l.length l

/-- Python `int(s)` restricted to the decimal digit strings that occur in
SAM Mm tag payloads (nonnegative, no sign, no whitespace); anything else
raises, i.e. yields `none`. -/
def parseDigits (l : List Char) : Option Nat :=
  if l = [] then none
  else if l.all (fun c => c.isDigit) then
    some (l.foldl (fun a c => a * 10 + (c.toNat - 48)) 0)
  else none

/-- Indices (0-based, from `start`) of all occurrences of `base`
(`re.finditer` with a single-character pattern). -/
def indicesOfFrom (base : Char) : Nat → List Char → List Nat
  | _, [] => []
  | i, c :: rest =>
    if c = base then i :: indicesOfFrom base (i + 1) rest
    else indicesOfFrom base (i + 1) rest

/-- Complement of a nucleotide (Biopython `Seq.complement` restricted to
the A/C/G/T/N alphabet of the read interface; other characters are kept). -/
def complementBase (c : Char) : Char :=
  if c = 'A' then 'T'
  else if c = 'T' then 'A'
  else if c = 'C' then 'G'
  else if c = 'G' then 'C'
  else c

/-- Biopython `Seq(query_seq).reverse_complement()` over `List Char`. -/
def reverse_complement (l : List Char) : List Char :=
  (l.reverse).map complementBase

/-- `get_base_indices(query_seq, base, reverse)`: 0-based indices of all
occurrences of `base` in the read sequence, computed against the
reverse-complement when the sequence is stored reversed. -/
def get_base_indices (query_seq : List Char) (base : Char) (reverse : Bool) : List Nat :=
  if reverse = false then indicesOfFrom base 0 query_seq
  else indicesOfFrom base 0 (reverse_complement query_seq)

/-- `get_mod_sequence(integers)`: running sums `base_count += i + 1`,
turning skip counts into cumulative 1-based ranks. -/
def get_mod_sequence_go (base_count : Nat) : List Nat → List Nat
  | [] => []
  | i :: rest => (base_count + i + 1) :: get_mod_sequence_go (base_count + i + 1) rest

/-- `get_mod_sequence([5, 12, 0]) = [6, 19, 20]`. -/
def get_mod_sequence (integers : List Nat) : List Nat :=
  get_mod_sequence_go 0 integers

/-- The list comprehension `[base_indices[i - 1] for i in mod_sequence]` of
`parse_mmtag`; the unguarded subscript raises `IndexError` (`none`) when a
rank overruns the available base indices. -/
def mod_indices_lookup (base_indices : List Nat) : List Nat → Option (List Nat)
  | [] => some []
  | i :: rest =>
    match base_indices.get? (i - 1), mod_indices_lookup base_indices rest with
    | some b, some bs => some (b :: bs)
    | _, _ => none

/-- `parse_mmtag(query_seq, mmtag, modcode, base, reverse)`: select the
first `;`-separated channel starting with `modcode`, strip the
`modcode + ','` prefix, parse the comma-separated skip counts, and look up
the 0-based in-read indices of the called bases.  `none` models an uncaught
exception (`ValueError` from `int`, `IndexError` from the subscript);
a tag with no matching channel yields `some []` (no call, no error). -/
def parse_mmtag (query_seq mmtag modcode : List Char) (base : Char) (reverse : Bool) :
    Option (List Nat) :=
  let modline := ((splitOnChar ';' mmtag).filter (fun x => modcode.isPrefixOf x)).map
    (fun x =>
      match modcode ++ [','] with
      | p :: ps => removeAll p ps x
      | [] => x)
  match modline with
  | [] => some []
  | s :: _ =>
    match (splitOnChar ',' s).mapM parseDigits with
    | none => none
    | some ints =>
      mod_indices_lookup (get_base_indices query_seq base reverse) (get_mod_sequence ints)

/-- `parse_mltag(mltag)`: normalize each discrete 0–255 value to
`round(x/256, 3)`, keeping a raw `0` exactly `0`. -/
def parse_mltag (mltag : List Nat) : List ℚ :=
  mltag.map (fun x : ℕ => if 0 < x then pyRound ((x : ℚ) / 256) 3 else 0)

/-- `get_mod_dict(query_seq, mmtag, modcode, base, mltag, reverse)`:
`dict(zip(mod_base_indices, mod_scores))`, as the association list in zip
order (`none` when `parse_mmtag` raised). -/
def get_mod_dict (query_seq mmtag modcode : List Char) (base : Char) (mltag : List Nat)
    (reverse : Bool) : Option (List (Nat × ℚ)) :=
  (parse_mmtag query_seq mmtag modcode base reverse).map
    (fun idxs => idxs.zip (parse_mltag mltag))

/-- One entry of a pileup value list: `[strand symbol, mod score, haplotype]`. -/
structure Obs where
  strand : Char
  score : ℚ
  hap : ℤ
deriving DecidableEq

/-- One aligned read, at the interface consumed by `pileup_from_reads`:
base sequence, orientation, mapping quality, the optional haplotype tag,
the optional Mm/Ml tag pair and the matched-only aligned pairs
`(query_pos, ref_pos)`. -/
structure Read where
  query_sequence : List Char
  is_reverse : Bool
  mapping_quality : Nat
  hapTag : Option ℤ
  mmtag : Option (List Char)
  mltag : Option (List Nat)
  aligned_pairs : List (Nat × Nat)
deriving DecidableEq

/-- Python `mod_dict[location]` with the `location not in mod_dict → 0`
guard of `pileup_from_reads`: value of the last binding of `location`
(dict semantics), or `0` when the key is absent.  The location is an `Int`
because the reverse-strand formula can go negative. -/
def lookupScore (d : List (Nat × ℚ)) (loc : ℤ) : ℚ :=
  match (d.filter (fun kv => (kv.1 : ℤ) == loc)).getLast? with
  | some kv => kv.2
  | none => 0

/-- The strand-relative query location of `pileup_from_reads`:
`query_pos` on the forward strand, `len(query_sequence) - query_pos - 2`
on the reverse strand. -/
def strand_location (r : Read) (query_pos : Nat) : Char × ℤ :=
  if r.is_reverse then ('-', (r.query_sequence.length : ℤ) - query_pos - 2)
  else ('+', (query_pos : ℤ))

/-- The pileup events contributed by one read of the region
`[pos_start, pos_stop]`: the loop body of `pileup_from_reads` for one
read.  `some []` covers the mapping-quality skip, the missing-tag skip and
an empty trimmed pair list; `none` models an exception escaping from
`get_mod_dict`.  The Python slice `[20:-20]` is `(drop 20).take (n - 40)`. -/
def processRead (pos_start pos_stop min_mapq : Nat) (r : Read) :
    Option (List (Nat × Obs)) :=
  if r.mapping_quality < min_mapq then some []
  else
    let hap : ℤ := r.hapTag.getD 0
    match r.mmtag, r.mltag with
    | some mm, some ml =>
      match get_mod_dict r.query_sequence mm ['C', '+', 'm'] 'C' ml r.is_reverse with
      | none => none
      | some mod_dict =>
        let trimmed := (r.aligned_pairs.drop 20).take (r.aligned_pairs.length - 40)
        some (trimmed.filterMap (fun qr =>
          if pos_start ≤ qr.2 ∧ qr.2 ≤ pos_stop then
            let sl := strand_location r qr.1
            some (qr.2, ⟨sl.1, lookupScore mod_dict sl.2, hap⟩)
          else none))
    | _, _ => some []

/-- `pileup_from_reads`: the dictionary with reference positions as keys,
represented by its ordered insertion events `(ref_pos, entry)`; `none`
models an exception raised while processing any read (which aborts the
whole region task). -/
def pileup_from_reads (pos_start pos_stop min_mapq : Nat) :
    List Read → Option (List (Nat × Obs))
  | [] => some []
  | r :: rest =>
    match processRead pos_start pos_stop min_mapq r with
    | none => none
    | some evs => (pileup_from_reads pos_start pos_stop min_mapq rest).map (evs ++ ·)

/-- Whether `pileup_from_reads` logs the missing-tag warning for a read:
only reads passing the mapping-quality gate and missing Mm or Ml. -/
def read_flagged (min_mapq : Nat) (r : Read) : Bool :=
  decide (min_mapq ≤ r.mapping_quality) && (r.mmtag.isNone || r.mltag.isNone)

/-- The reads for which `pileup_from_reads` logs the
`read missing MM and/or ML tag(s)` warning. -/
def pileup_warnings (min_mapq : Nat) (reads : List Read) : List Read :=
  reads.filter (read_flagged min_mapq)

/-- The per-position body of the `denovo` branch of `filter_data_dict`:
keep a strand's observations iff that strand has at least one score
`> 0.5`; `none` when the position is dropped entirely. -/
def filter_pos (v : List Obs) : Option (List Obs) :=
  let fwd := v.filter (fun o => o.strand == '+')
  let rev := v.filter (fun o => o.strand == '-')
  let keepF := !(fwd.filter (fun o => decide ((1 : ℚ) / 2 < o.score))).isEmpty
  let keepR := !(rev.filter (fun o => decide ((1 : ℚ) / 2 < o.score))).isEmpty
  if keepF || keepR then
    some ((if keepF then fwd else []) ++ (if keepR then rev else []))
  else none

/-- The `denovo` branch of `filter_data_dict`, over the dictionary as an
association list in insertion order (keys distinct for a real dict).  The
`reference` branch consults the reference fasta and is outside the claims
settled here. -/
def filter_data_dict (data_dict : List (Nat × List Obs)) : List (Nat × List Obs) :=
  data_dict.filterMap (fun kv => (filter_pos kv.2).map (fun v => (kv.1, v)))

/-- Insert an item after every already-placed item whose key is not
strictly greater (stable insertion). -/
def insertItem (a : Nat × List Obs) : List (Nat × List Obs) → List (Nat × List Obs)
  | [] => [a]
  | b :: t => if a.1 < b.1 then a :: b :: t else b :: insertItem a t

/-- `sorted(filtered_dict.items())`: ascending by key.  A Python dict has
distinct keys, for which every (stable) sort agrees; a structural
insertion sort is used so that concrete instances evaluate. -/
def sortItems (items : List (Nat × List Obs)) : List (Nat × List Obs) :=
  items.foldl (fun acc a => insertItem a acc) []

/-- `calc_stats(df)` of the count aggregator:
(percent modified, modified count, unmodified count, mean modified score,
mean unmodified score), with `none` for the `"."` sentinels. -/
def calc_stats (rows : List Obs) : ℚ × Nat × Nat × Option ℚ × Option ℚ :=
  let total := rows.length
  let modRows := rows.filter (fun o => decide ((1 : ℚ) / 2 < o.score))
  let unmodRows := rows.filter (fun o => decide (o.score ≤ (1 : ℚ) / 2))
  let modCount := modRows.length
  let unmodCount := unmodRows.length
  let modScore := if modCount = 0 then none
    else some (pyRound ((modRows.map Obs.score).sum / modCount) 3)
  let unmodScore := if unmodCount = 0 then none
    else some (pyRound ((unmodRows.map Obs.score).sum / unmodCount) 3)
  let percentMod : ℚ := if modCount = 0 then 0
    else pyRound (((modCount : ℚ) / total) * 100) 1
  (percentMod, modCount, unmodCount, modScore, unmodScore)

/-- One output row of the count aggregator
`[ref, start, stop, percent, group label, coverage, mod, unmod,
mod score, unmod score]`. -/
structure BedRecord where
  ref : String
  start : Nat
  stop : Nat
  percent : ℚ
  label : String
  coverage : Nat
  modCount : Nat
  unmodCount : Nat
  modScore : Option ℚ
  unmodScore : Option ℚ
deriving DecidableEq

/-- The per-position loop body of `collect_bed_results_count`: one record
per group in hap1, hap2, Total order, each emitted only when
`mod + unMod >= 1`. -/
def position_records (ref : String) (refPosition : Nat) (v : List Obs) : List BedRecord :=
  let s1 := calc_stats (v.filter (fun o => o.hap == 1))
  let s2 := calc_stats (v.filter (fun o => o.hap == 2))
  let st := calc_stats v
  (if 1 ≤ s1.2.1 + s1.2.2.1 then
    [⟨ref, refPosition, refPosition + 1, s1.1, "hap1", s1.2.1 + s1.2.2.1, s1.2.1, s1.2.2.1,
      s1.2.2.2.1, s1.2.2.2.2⟩] else []) ++
  (if 1 ≤ s2.2.1 + s2.2.2.1 then
    [⟨ref, refPosition, refPosition + 1, s2.1, "hap2", s2.2.1 + s2.2.2.1, s2.2.1, s2.2.2.1,
      s2.2.2.2.1, s2.2.2.2.2⟩] else []) ++
  (if 1 ≤ st.2.1 + st.2.2.1 then
    [⟨ref, refPosition, refPosition + 1, st.1, "Total", st.2.1 + st.2.2.1, st.2.1, st.2.2.1,
      st.2.2.2.1, st.2.2.2.2⟩] else [])

/-- `collect_bed_results_count(ref, pos_start, pos_stop, filtered_dict)`
(the coordinates are only logged by the source). -/
def collect_bed_results_count (ref : String) (filtered_dict : List (Nat × List Obs)) :
    List BedRecord :=
  (sortItems filtered_dict).flatMap (fun kv => position_records ref kv.1 kv.2)

/-- The `while start < length` loop of `get_regions_to_process` for one
reference of the given length, as `(start, stop)` coordinate pairs.  The
fuel argument only bounds the iteration count; `chunk_loop_cov` shows the
fuel `length` used by `chunk_ref` never runs out for a positive chunksize. -/
def chunk_loop (chunksize length : Nat) : Nat → Nat → List (Nat × Nat)
  | 0, _ => []
  | fuel + 1, start =>
    if start < length then
      (if start + chunksize < length then (start, start + chunksize - 1) else (start, length))
        :: chunk_loop chunksize length fuel (start + chunksize)
    else []

/-- The chunks produced for one `(reference, length)` pair. -/
def chunk_ref (chunksize length : Nat) : List (Nat × Nat) :=
  chunk_loop chunksize length length 1

/-- `get_regions_to_process`: chunks for every reference, in reference
order (only the coordinate-bearing fields are modelled; the bam/fasta
paths and option fields are passed through unchanged by the source). -/
def get_regions_to_process (chunksize : Nat) (references : List (String × Nat)) :
    List (String × Nat × Nat) :=
  references.flatMap (fun rl => (chunk_ref chunksize rl.2).map (fun se => (rl.1, se.1, se.2)))

/-- The raw 20-bin histogram of `get_normalized_histo`:
`np.histogram(probs, bins=20, range=[0, 1])[0]`.  Bin `i` is
`[i/20, (i+1)/20)`, except the last bin which also includes `1`. -/
def histogram20 (probs : List ℚ) : List Nat :=
  (List.range 20).map (fun i =>
    (probs.filter (fun p =>
      decide ((i : ℚ) / 20 ≤ p) &&
        (decide (p < ((i : ℚ) + 1) / 20) || (decide (i = 19) && decide (p ≤ 1))))).length)

/-- One model-mode feature row as kept by `collect_bed_results_model`
before the sliding window: reference position, the 20 histogram bin
counts, the coverage and the 21st (adjacency) element.  The source divides
the bin counts by their Euclidean norm (an irrational positive scaling)
before appending the adjacency element; the bins are kept unnormalized
here, which leaves the adjacency element — the subject of the claims —
exactly as the source computes it, since `norm_hist[20] = adj` is written
after the division. -/
structure Feat where
  pos : Nat
  hist : List Nat
  cov : Nat
  adj : Nat
deriving DecidableEq

/-- `get_normalized_histo(df, adj)` (see `Feat` for the normalization):
`none` below the coverage gate of 4. -/
def get_normalized_histo (obs : List Obs) (adj : Nat) : Option (List Nat × Nat) :=
  if 4 ≤ obs.length then some (histogram20 (obs.map Obs.score), obs.length) else none

/-- The position loop of `collect_bed_results_model` for one group
selector, threading `previousLocation` (initially 0, updated at every
position of the filtered dict regardless of group or coverage). -/
def collect_model_feats (sel : Obs → Bool) : Nat → List (Nat × List Obs) → List Feat
  | _, [] => []
  | previousLocation, (refPosition, v) :: rest =>
    let adj := if refPosition - previousLocation = 2 then 1 else 0
    (match get_normalized_histo (v.filter sel) adj with
     | some hc => [⟨refPosition, hc.1, hc.2, adj⟩]
     | none => []) ++ collect_model_feats sel refPosition rest

/-- The three per-group feature sequences (Total, hap1, hap2) built by
`collect_bed_results_model` before padding, windowing and the external
model call. -/
def model_feats (filtered_dict : List (Nat × List Obs)) :
    List Feat × List Feat × List Feat :=
  (collect_model_feats (fun _ => true) 0 (sortItems filtered_dict),
   collect_model_feats (fun o => o.hap == 1) 0 (sortItems filtered_dict),
   collect_model_feats (fun o => o.hap == 2) 0 (sortItems filtered_dict))

/-- Each item of the sorted filtered dict paired with its predecessor key
(the value `previousLocation` holds when the item is visited). -/
def withPrev : Nat → List (Nat × List Obs) → List (Nat × Nat × List Obs)
  | _, [] => []
  | prev, (k, v) :: rest => (k, prev, v) :: withPrev k rest

/-- `run_process_region` for the count pileup mode, from the filtered
dictionary on (the bam traversal and filtering stages are composed by the
source before this point): the computed records are returned only when
`len(bed_results) > 1`, otherwise the region reports `None`. -/
def run_process_region (ref : String) (filtered_dict : List (Nat × List Obs)) :
    Option (List BedRecord) :=
  let bed_results := collect_bed_results_count ref filtered_dict
  if 1 < bed_results.length then some bed_results else none

/-- The `(reference name, start)` sort key order of
`flattened_bed_results.sort(key=itemgetter(0, 1))`. -/
def recLE (a b : BedRecord) : Bool :=
  decide (a.ref < b.ref) || (decide (a.ref = b.ref) && decide (a.start ≤ b.start))

/-- `run_all_pileup_processing`, from the per-region results: drop falsy
results (`None`, and an empty list, which `run_process_region` never
returns), flatten, and sort by `(reference name, start)`. -/
def run_all_pileup_processing (results : List (Option (List BedRecord))) :
    List BedRecord :=
  let filtered := results.filterMap (fun o =>
    match o with
    | some l => if l.isEmpty then none else some l
    | none => none)
  (filtered.flatten).mergeSort recLE

/-- The three observation groups of both aggregators. -/
inductive ObsGroup | hap1 | hap2 | total
deriving DecidableEq

/-- The dataframe filter of each group: `df[df['hap'] == 1]`,
`df[df['hap'] == 2]`, or the whole frame. -/
def groupSel : ObsGroup → Obs → Bool
  | .hap1 => fun o => o.hap == 1
  | .hap2 => fun o => o.hap == 2
  | .total => fun _ => true

/-- The group label written into the output rows. -/
def groupLabel : ObsGroup → String
  | .hap1 => "hap1"
  | .hap2 => "hap2"
  | .total => "Total"

lemma get_mod_sequence_go_eq (b : Nat) (l : List Nat) :
    get_mod_sequence_go b l =
      (List.range l.length).map (fun j => b + ((l.take (j + 1)).map (· + 1)).sum) := by
  induction l generalizing b with
  | nil => simp [get_mod_sequence_go]
  | cons i rest ih =>
    simp only [get_mod_sequence_go, List.length_cons, List.range_succ_eq_map, List.map_cons,
      List.map_map, ih]
    congr 1
    apply List.map_congr_left
    intro j _
    simp only [Function.comp_apply, Nat.succ_eq_add_one, List.take_succ_cons, List.map_cons,
      List.sum_cons]
    omega

/-- The Mm tag `C+m,5,12,0;` of the worked example. -/
def exTagC4 : List Char := ['C', '+', 'm', ',', '5', ',', '1', '2', ',', '0', ';']

lemma parse_mmtag_exTagC4 (query_seq : List Char) (reverse : Bool) :
    parse_mmtag query_seq exTagC4 ['C', '+', 'm'] 'C' reverse =
      mod_indices_lookup (get_base_indices query_seq 'C' reverse) [6, 19, 20] := rfl

lemma mod_indices_lookup_cons_of_lt {bi : List Nat} {i : Nat} {rest : List Nat}
    (h : i - 1 < bi.length) :
    mod_indices_lookup bi (i :: rest) =
      (mod_indices_lookup bi rest).map (fun bs => bi.getD (i - 1) 0 :: bs) := by
  rw [mod_indices_lookup, List.get?_eq_getElem?, List.getElem?_eq_getElem h]
  cases mod_indices_lookup bi rest with
  | none => simp
  | some bs => simp [List.getD_eq_getElem?_getD, List.getElem?_eq_getElem h]

unseal Rat.mul Rat.inv Rat.add Rat.sub in
lemma parse_mltag_ex : parse_mltag [204, 89, 26] = [797 / 1000, 348 / 1000, 102 / 1000] := by
  decide

/-- C4: `TagDecoder` converts a skip-count list into cumulative 1-based
ranks `rank_i = Σ_{j ≤ i} (skip_j + 1)`, normalizes each raw probability
value to `round(raw/256, 3)` with raw `0` mapping exactly to `0.0`, and on
every read with at least 20 occurrences of the target base the skip
sequence `[5,12,0]` with values `[204,89,26]` yields exactly the mapping
`{index of 6th occurrence ↦ 0.797, idx(19th) ↦ 0.348, idx(20th) ↦ 0.102}`
(in zip order). -/
theorem c4_tag_decoder :
    (∀ skips : List Nat, get_mod_sequence skips =
        (List.range skips.length).map (fun i => ((skips.take (i + 1)).map (· + 1)).sum))
    ∧ parse_mltag [204, 89, 26] = [797 / 1000, 348 / 1000, 102 / 1000]
    ∧ (∀ mltag : List Nat, parse_mltag mltag =
        mltag.map (fun x : ℕ => if x = 0 then 0 else pyRound ((x : ℚ) / 256) 3))
    ∧ (∀ (query_seq : List Char) (reverse : Bool),
        20 ≤ (get_base_indices query_seq 'C' reverse).length →
        get_mod_dict query_seq exTagC4 ['C', '+', 'm'] 'C' [204, 89, 26] reverse =
          some [((get_base_indices query_seq 'C' reverse).getD 5 0, 797 / 1000),
                ((get_base_indices query_seq 'C' reverse).getD 18 0, 348 / 1000),
                ((get_base_indices query_seq 'C' reverse).getD 19 0, 102 / 1000)]) := by
  refine ⟨?_, parse_mltag_ex, ?_, ?_⟩
  · intro skips
    rw [get_mod_sequence, get_mod_sequence_go_eq]
    apply List.map_congr_left
    intro j _
    omega
  · intro mltag
    have hfun : (fun x : ℕ => if 0 < x then pyRound ((x : ℚ) / 256) 3 else 0)
        = (fun x : ℕ => if x = 0 then 0 else pyRound ((x : ℚ) / 256) 3) := by
      funext x
      by_cases hx : x = 0
      · simp [hx]
      · simp [hx, Nat.pos_of_ne_zero hx]
    rw [parse_mltag, hfun]

  · intro query_seq reverse h
    have h6 : (6 - 1 : Nat) < (get_base_indices query_seq 'C' reverse).length := by omega
    have h19 : (19 - 1 : Nat) < (get_base_indices query_seq 'C' reverse).length := by omega
    have h20 : (20 - 1 : Nat) < (get_base_indices query_seq 'C' reverse).length := by omega
    unfold get_mod_dict
    rw [parse_mmtag_exTagC4, mod_indices_lookup_cons_of_lt h6,
      mod_indices_lookup_cons_of_lt h19, mod_indices_lookup_cons_of_lt h20]
    simp only [mod_indices_lookup, Option.map_some, Option.map_map, parse_mltag_ex]
    simp [List.zip]

unseal Rat.mul Rat.inv Rat.add Rat.sub in
theorem c4_tag_decoder_witness :
    get_mod_dict (List.replicate 20 'C') exTagC4 ['C', '+', 'm'] 'C' [204, 89, 26] false =
      some [((get_base_indices (List.replicate 20 'C') 'C' false).getD 5 0, 797 / 1000),
            ((get_base_indices (List.replicate 20 'C') 'C' false).getD 18 0, 348 / 1000),
            ((get_base_indices (List.replicate 20 'C') 'C' false).getD 19 0, 102 / 1000)] :=
  c4_tag_decoder.2.2.2 (List.replicate 20 'C') false (by decide)

lemma get_mod_sequence_go_lt (l : List Nat) (b : Nat) :
    ∀ x ∈ get_mod_sequence_go b l, b < x := by
  induction l generalizing b with
  | nil => simp [get_mod_sequence_go]
  | cons i rest ih =>
    intro x hx
    rw [get_mod_sequence_go] at hx
    rcases List.mem_cons.mp hx with h | h
    · omega
    · have := ih (b + i + 1) x h
      omega

lemma mod_indices_lookup_isSome {bi ms : List Nat}
    (h : ∀ i ∈ ms, 1 ≤ i ∧ i ≤ bi.length) :
    ∃ idxs, mod_indices_lookup bi ms = some idxs := by
  induction ms with
  | nil => exact ⟨[], rfl⟩
  | cons i rest ih =>
    obtain ⟨idxs, hi⟩ := ih (fun j hj => h j (List.mem_cons_of_mem _ hj))
    have h1 := h i (List.mem_cons_self _ _)
    have hlt : i - 1 < bi.length := by omega
    rw [mod_indices_lookup, List.get?_eq_getElem?, List.getElem?_eq_getElem hlt, hi]
    exact ⟨_, rfl⟩

/-- A read whose Mm tag is consistent with its sequence (one call on the
first of its 41 aligned `C` bases). -/
def rGoodC10 : Read :=
  { query_sequence := List.replicate 41 'C'
    is_reverse := false
    mapping_quality := 60
    hapTag := none
    mmtag := some ['C', '+', 'm', ',', '0', ';']
    mltag := some [204]
    aligned_pairs := (List.range 41).map (fun i => (i, 100 + i)) }

/-- A read whose Mm tag skip count overruns its single `C` base
(cumulative rank 6 over one occurrence). -/
def rOverrunC10 : Read :=
  { query_sequence := ['C']
    is_reverse := false
    mapping_quality := 60
    hapTag := none
    mmtag := some ['C', '+', 'm', ',', '5', ';']
    mltag := some [204]
    aligned_pairs := [] }

unseal Rat.mul Rat.inv Rat.add Rat.sub in
/-- C10: whenever every cumulative rank is at most the number of target-base
occurrences in the orientation-adjusted read sequence, the unguarded
`base_indices[rank - 1]` lookup of `parse_mmtag` succeeds; an Mm tag whose
skip counts overrun the read's target-base occurrences makes the lookup go
out of bounds, and the resulting error fails the whole region task
(`pileup_from_reads` raises) instead of skipping that read. -/
theorem c10_unguarded_lookup :
    (∀ (query_seq : List Char) (reverse : Bool) (skips : List Nat),
       (∀ rank ∈ get_mod_sequence skips,
          rank ≤ (get_base_indices query_seq 'C' reverse).length) →
       ∃ idxs, mod_indices_lookup (get_base_indices query_seq 'C' reverse)
          (get_mod_sequence skips) = some idxs)
    ∧ parse_mmtag ['C'] ['C', '+', 'm', ',', '5', ';'] ['C', '+', 'm'] 'C' false = none
    ∧ pileup_from_reads 100 200 0 [rGoodC10, rOverrunC10] = none
    ∧ pileup_from_reads 100 200 0 [rGoodC10] = some [(120, ⟨'+', 0, 0⟩)] := by
  refine ⟨?_, by decide, by decide, by decide⟩
  intro query_seq reverse skips h
  exact mod_indices_lookup_isSome (fun i hi =>
    ⟨get_mod_sequence_go_lt skips 0 i hi, h i hi⟩)

theorem c10_unguarded_lookup_witness :
    ∃ idxs, mod_indices_lookup (get_base_indices (List.replicate 20 'C') 'C' false)
      (get_mod_sequence [5, 12, 0]) = some idxs :=
  c10_unguarded_lookup.1 (List.replicate 20 'C') false [5, 12, 0] (by decide)

lemma processRead_mem_trim {ps pe mq : Nat} {r : Read} {evs : List (Nat × Obs)}
    (he : processRead ps pe mq r = some evs) :
    ∀ e ∈ evs, ∃ qr ∈ (r.aligned_pairs.drop 20).take (r.aligned_pairs.length - 40),
      e.1 = qr.2 := by
  intro e hmem
  unfold processRead at he
  split at he
  · cases he; cases hmem
  · split at he
    · split at he
      · cases he
      · cases he
        obtain ⟨qr, hqr, hf⟩ := List.mem_filterMap.mp hmem
        refine ⟨qr, hqr, ?_⟩
        split at hf
        · cases hf; rfl
        · cases hf
    · cases he; cases hmem

lemma processRead_short {ps pe mq : Nat} {r : Read} (h41 : r.aligned_pairs.length < 41)
    (hs : (processRead ps pe mq r).isSome = true) :
    processRead ps pe mq r = some [] := by
  obtain ⟨evs, he⟩ := Option.isSome_iff_exists.mp hs
  have hnil : evs = [] := by
    cases evs with
    | nil => rfl
    | cons e tl =>
      obtain ⟨qr, hqr, _⟩ := processRead_mem_trim he e (List.mem_cons_self _ _)
      have h0 : r.aligned_pairs.length - 40 = 0 := by omega
      rw [h0, List.take_zero] at hqr
      cases hqr
  rw [he, hnil]

lemma pileup_append (ps pe mq : Nat) (a b : List Read) :
    pileup_from_reads ps pe mq (a ++ b) =
      (pileup_from_reads ps pe mq a).bind
        (fun ea => (pileup_from_reads ps pe mq b).map (fun eb => ea ++ eb)) := by
  induction a with
  | nil =>
    rw [List.nil_append, pileup_from_reads]
    cases pileup_from_reads ps pe mq b <;> simp
  | cons r rest ih =>
    rw [List.cons_append, pileup_from_reads, pileup_from_reads]
    cases hr : processRead ps pe mq r with
    | none => simp
    | some evs =>
      rw [ih]
      cases pileup_from_reads ps pe mq rest <;>
        cases pileup_from_reads ps pe mq b <;> simp

/-- C1: `pileup_from_reads` projects calls only from the aligned pairs
left after trimming the first and last 20 (`[20:-20]`, i.e.
`(drop 20).take (n - 40)`), and a read with fewer than 41 aligned pairs
(so that nothing survives the trim) contributes no observation to the
pileup: deleting it leaves the pileup unchanged. -/
theorem c1_trim_contribution :
    (∀ (ps pe mq : Nat) (r : Read) (evs : List (Nat × Obs)),
       processRead ps pe mq r = some evs →
       ∀ e ∈ evs, ∃ qr ∈ (r.aligned_pairs.drop 20).take (r.aligned_pairs.length - 40),
         e.1 = qr.2)
    ∧ (∀ (ps pe mq : Nat) (pre post : List Read) (r : Read),
       r.aligned_pairs.length < 41 → (processRead ps pe mq r).isSome = true →
       pileup_from_reads ps pe mq (pre ++ r :: post) =
         pileup_from_reads ps pe mq (pre ++ post)) := by
  constructor
  · intro ps pe mq r evs he
    exact processRead_mem_trim he
  · intro ps pe mq pre post r h41 hs
    have hr : processRead ps pe mq r = some [] := processRead_short h41 hs
    have hro : pileup_from_reads ps pe mq (r :: post) = pileup_from_reads ps pe mq post := by
      rw [pileup_from_reads, hr]
      cases pileup_from_reads ps pe mq post <;> simp
    rw [pileup_append, pileup_append, hro]

/-- A forward read with one decoded call (on its first base) and a single
aligned pair surviving the trim, at query position 20 / reference 120. -/
def rExC3 : Read :=
  { query_sequence := List.replicate 60 'C'
    is_reverse := false
    mapping_quality := 60
    hapTag := some 1
    mmtag := some ['C', '+', 'm', ',', '0', ';']
    mltag := some [204]
    aligned_pairs := (List.range 41).map (fun i => (i, 100 + i)) }

/-- A read with a single aligned pair, which the `[20:-20]` trim empties. -/
def rShortC1 : Read :=
  { query_sequence := List.replicate 60 'C'
    is_reverse := false
    mapping_quality := 60
    hapTag := none
    mmtag := some ['C', '+', 'm', ',', '0', ';']
    mltag := some [204]
    aligned_pairs := [(0, 100)] }

unseal Rat.mul Rat.inv Rat.add Rat.sub in
theorem c1_trim_contribution_witness :
    pileup_from_reads 1 1000 0 ([rExC3] ++ rShortC1 :: []) =
      pileup_from_reads 1 1000 0 ([rExC3] ++ []) :=
  c1_trim_contribution.2 1 1000 0 [rExC3] [] rShortC1 (by decide) (by decide)

/-- C3: for every retained aligned pair `(q, rp)` inside the region, the
observation appended at `rp` carries the decoded mapping's value at the
strand-relative query location — `q` on the forward strand,
`len(query_sequence) - q - 2` on the reverse strand — and that value is
`0` whenever the location is absent from the mapping. -/
theorem c3_strand_location_score :
    (∀ (ps pe mq : Nat) (r : Read) (mm : List Char) (ml : List Nat)
       (md : List (Nat × ℚ)) (q rp : Nat),
       r.mmtag = some mm → r.mltag = some ml →
       get_mod_dict r.query_sequence mm ['C', '+', 'm'] 'C' ml r.is_reverse = some md →
       mq ≤ r.mapping_quality →
       (q, rp) ∈ (r.aligned_pairs.drop 20).take (r.aligned_pairs.length - 40) →
       ps ≤ rp → rp ≤ pe →
       ∃ evs, processRead ps pe mq r = some evs ∧
         (rp, ⟨(strand_location r q).1, lookupScore md (strand_location r q).2,
               r.hapTag.getD 0⟩) ∈ evs)
    ∧ (∀ (r : Read) (q : Nat), strand_location r q =
        if r.is_reverse then ('-', (r.query_sequence.length : ℤ) - q - 2)
        else ('+', (q : ℤ)))
    ∧ (∀ (md : List (Nat × ℚ)) (loc : ℤ),
       (∀ kv ∈ md, (kv.1 : ℤ) ≠ loc) → lookupScore md loc = 0)
    ∧ (∀ (md : List (Nat × ℚ)) (k : Nat) (p : ℚ),
       (md.map Prod.fst).Nodup → (k, p) ∈ md → lookupScore md (k : ℤ) = p) := by
  refine ⟨?_, fun r q => rfl, ?_, ?_⟩
  · intro ps pe mq r mm ml md q rp hmm hml hmd hq hmem hps hpe
    have hpr : processRead ps pe mq r = some
        (((r.aligned_pairs.drop 20).take (r.aligned_pairs.length - 40)).filterMap
          (fun qr => if ps ≤ qr.2 ∧ qr.2 ≤ pe then
            some (qr.2, (⟨(strand_location r qr.1).1,
              lookupScore md (strand_location r qr.1).2, r.hapTag.getD 0⟩ : Obs))
          else none)) := by
      unfold processRead
      rw [if_neg (by omega)]
      simp only [hmm, hml, hmd]
    exact ⟨_, hpr, List.mem_filterMap.mpr ⟨(q, rp), hmem, by simp [hps, hpe]⟩⟩
  · intro md loc h
    have hf : md.filter (fun kv => (kv.1 : ℤ) == loc) = [] :=
      List.filter_eq_nil_iff.mpr (fun kv hkv => by simpa using h kv hkv)
    unfold lookupScore
    rw [hf]
    rfl
  · intro md k p hnd hmem
    induction md with
    | nil => cases hmem
    | cons a tl ih =>
      rw [List.map_cons, List.nodup_cons] at hnd
      rcases List.mem_cons.mp hmem with he | hm
      · have hftl : tl.filter (fun kv => (kv.1 : ℤ) == (k : ℤ)) = [] := by
          refine List.filter_eq_nil_iff.mpr (fun kv hkv => ?_)
          have : kv.1 ≠ a.1 := by
            intro hcon
            exact hnd.1 (hcon ▸ List.mem_map_of_mem Prod.fst hkv)
          rw [← he] at this
          simp only [beq_iff_eq, Ne, Int.natCast_inj]
          intro hkk
          exact this (by simp [hkk])
        unfold lookupScore
        rw [List.filter_cons_of_pos (by simp [← he]), hftl]
        simp [← he]
      · have hne : a.1 ≠ k := by
          intro hcon
          exact hnd.1 (hcon ▸ List.mem_map_of_mem Prod.fst hm)
        unfold lookupScore at ih ⊢
        rw [List.filter_cons_of_neg (by simpa using fun hcon => hne (by exact_mod_cast hcon))]
        exact ih hnd.2 hm

unseal Rat.mul Rat.inv Rat.add Rat.sub in
theorem c3_strand_location_score_witness :
    ∃ evs, processRead 100 200 0 rExC3 = some evs ∧
      (120, ⟨(strand_location rExC3 20).1,
             lookupScore [(0, 797 / 1000)] (strand_location rExC3 20).2,
             rExC3.hapTag.getD 0⟩) ∈ evs :=
  c3_strand_location_score.1 100 200 0 rExC3 ['C', '+', 'm', ',', '0', ';'] [204]
    [(0, 797 / 1000)] 20 120 (by decide) (by decide) (by decide) (by decide) (by decide)
    (by decide) (by decide)

lemma filter_keep_iff (s : Char) (v : List Obs) :
    (!(List.filter (fun o => decide ((1 : ℚ) / 2 < o.score))
        (List.filter (fun o => o.strand == s) v)).isEmpty) = true ↔
      ∃ o ∈ v, o.strand = s ∧ (1 : ℚ) / 2 < o.score := by
  rw [Bool.not_eq_true', List.isEmpty_eq_false_iff_exists_mem]
  constructor
  · rintro ⟨o, ho⟩
    rw [List.mem_filter] at ho
    obtain ⟨ho1, ho2⟩ := ho
    rw [List.mem_filter] at ho1
    exact ⟨o, ho1.1, by simpa using ho1.2, of_decide_eq_true ho2⟩
  · rintro ⟨o, ho, hs, hsc⟩
    refine ⟨o, ?_⟩
    rw [List.mem_filter, List.mem_filter]
    exact ⟨⟨ho, by simp [hs]⟩, decide_eq_true hsc⟩

lemma filter_pos_none_iff (v : List Obs) :
    filter_pos v = none ↔
      (¬ ∃ o ∈ v, o.strand = '+' ∧ (1 : ℚ) / 2 < o.score) ∧
      (¬ ∃ o ∈ v, o.strand = '-' ∧ (1 : ℚ) / 2 < o.score) := by
  simp only [filter_pos]
  by_cases hf : ∃ o ∈ v, o.strand = '+' ∧ (1 : ℚ) / 2 < o.score
  · rw [if_pos (by rw [Bool.or_eq_true]; exact Or.inl ((filter_keep_iff '+' v).mpr hf))]
    exact ⟨fun h => Option.noConfusion h, fun hc => absurd hf hc.1⟩
  · by_cases hr : ∃ o ∈ v, o.strand = '-' ∧ (1 : ℚ) / 2 < o.score
    · rw [if_pos (by rw [Bool.or_eq_true]; exact Or.inr ((filter_keep_iff '-' v).mpr hr))]
      exact ⟨fun h => Option.noConfusion h, fun hc => absurd hr hc.2⟩
    · rw [if_neg (by
        rw [Bool.or_eq_true]
        rintro (hc | hc)
        · exact hf ((filter_keep_iff '+' v).mp hc)
        · exact hr ((filter_keep_iff '-' v).mp hc))]
      exact ⟨fun _ => ⟨hf, hr⟩, fun _ => rfl⟩

lemma mem_assoc_unique {d : List (Nat × List Obs)} {k : Nat} {v v' : List Obs}
    (hnd : (d.map Prod.fst).Nodup) (h1 : (k, v) ∈ d) (h2 : (k, v') ∈ d) : v = v' := by
  induction d with
  | nil => cases h1
  | cons a tl ih =>
    rw [List.map_cons, List.nodup_cons] at hnd
    rcases List.mem_cons.mp h1 with e1 | m1 <;> rcases List.mem_cons.mp h2 with e2 | m2
    · exact congrArg Prod.snd (e1.trans e2.symm)
    · exfalso
      apply hnd.1
      have hk : k ∈ List.map Prod.fst tl := by
        simpa using List.mem_map_of_mem Prod.fst m2
      rw [← e1]
      simpa using hk
    · exfalso
      apply hnd.1
      have hk : k ∈ List.map Prod.fst tl := by
        simpa using List.mem_map_of_mem Prod.fst m1
      rw [← e2]
      simpa using hk
    · exact ih hnd.2 m1 m2

/-- C8: the `denovo` filter partitions each position's observations by
strand, retains a strand's observations iff some observation on that
strand has probability above 0.5, drops the position when neither strand
qualifies — in particular any position all of whose observations have
probability 0, regardless of how many — and a dropped position is absent
from the filtered dictionary. -/
theorem c8_denovo_filter :
    (∀ v : List Obs, filter_pos v = none ↔
      (¬ ∃ o ∈ v, o.strand = '+' ∧ (1 : ℚ) / 2 < o.score) ∧
      (¬ ∃ o ∈ v, o.strand = '-' ∧ (1 : ℚ) / 2 < o.score))
    ∧ (∀ (v res : List Obs), filter_pos v = some res →
        res = (if ∃ o ∈ v, o.strand = '+' ∧ (1 : ℚ) / 2 < o.score then
                 v.filter (fun o => o.strand == '+') else []) ++
              (if ∃ o ∈ v, o.strand = '-' ∧ (1 : ℚ) / 2 < o.score then
                 v.filter (fun o => o.strand == '-') else []))
    ∧ (∀ v : List Obs, (∀ o ∈ v, o.score = 0) → filter_pos v = none)
    ∧ (∀ (d : List (Nat × List Obs)) (k : Nat) (v : List Obs),
        (d.map Prod.fst).Nodup → (k, v) ∈ d → filter_pos v = none →
        ∀ v', (k, v') ∉ filter_data_dict d) := by
  refine ⟨filter_pos_none_iff, ?_, ?_, ?_⟩
  · intro v res h
    simp only [filter_pos] at h
    split at h
    · cases h
      congr 1
      · exact if_congr (filter_keep_iff '+' v) rfl rfl
      · exact if_congr (filter_keep_iff '-' v) rfl rfl
    · cases h
  · intro v hz
    rw [filter_pos_none_iff]
    constructor
    · rintro ⟨o, ho, _, hsc⟩
      rw [hz o ho] at hsc
      norm_num at hsc
    · rintro ⟨o, ho, _, hsc⟩
      rw [hz o ho] at hsc
      norm_num at hsc
  · intro d k v hnd hmem hnone v' hcon
    obtain ⟨kv, hkv, hf⟩ := List.mem_filterMap.mp hcon
    cases hfp : filter_pos kv.2 with
    | none => rw [hfp] at hf; cases hf
    | some w =>
      rw [hfp] at hf
      cases hf
      have h2 : kv.2 = v := mem_assoc_unique hnd (by exact hkv) hmem
      rw [h2, hnone] at hfp
      cases hfp

unseal Rat.mul Rat.inv Rat.add Rat.sub in
theorem c8_denovo_filter_witness :
    filter_pos [⟨'+', 0, 1⟩, ⟨'-', 0, 0⟩, ⟨'+', 0, 2⟩] = none :=
  c8_denovo_filter.2.2.1 [⟨'+', 0, 1⟩, ⟨'-', 0, 0⟩, ⟨'+', 0, 2⟩] (by decide)

/-- `mod` of `calc_stats`: observations with probability above 0.5. -/
def modCountOf (rows : List Obs) : Nat :=
  (rows.filter (fun o => decide ((1 : ℚ) / 2 < o.score))).length

/-- `unMod` of `calc_stats`: observations with probability at most 0.5. -/
def unmodCountOf (rows : List Obs) : Nat :=
  (rows.filter (fun o => decide (o.score ≤ (1 : ℚ) / 2))).length

/-- The row `collect_bed_results_count` appends for one group when the
group's emission gate passes. -/
def groupRecord (ref : String) (k : Nat) (v : List Obs) (g : ObsGroup) : BedRecord :=
  let s := calc_stats (v.filter (groupSel g))
  ⟨ref, k, k + 1, s.1, groupLabel g, s.2.1 + s.2.2.1, s.2.1, s.2.2.1, s.2.2.2.1, s.2.2.2.2⟩

lemma length_mod_unmod (rows : List Obs) :
    rows.length = modCountOf rows + unmodCountOf rows := by
  have h := @List.length_eq_length_filter_add _ rows
    (fun o => decide ((1 : ℚ) / 2 < o.score))
  rw [h]
  congr 1
  unfold unmodCountOf
  congr 1
  apply List.filter_congr
  intro o _
  rw [← decide_not]
  exact decide_eq_decide.mpr not_lt

lemma mem_ite_singleton {α : Type} {c : Prop} [Decidable c] {x r : α} :
    (r ∈ if c then [x] else []) ↔ c ∧ r = x := by
  by_cases hc : c <;> simp [hc]

lemma filter_total (v : List Obs) : v.filter (groupSel .total) = v := by
  simp [groupSel]

lemma position_records_mem (ref : String) (k : Nat) (v : List Obs) (r : BedRecord) :
    r ∈ position_records ref k v ↔
      ((1 ≤ modCountOf (v.filter (groupSel .hap1)) + unmodCountOf (v.filter (groupSel .hap1))
          ∧ r = groupRecord ref k v .hap1)
       ∨ (1 ≤ modCountOf (v.filter (groupSel .hap2)) + unmodCountOf (v.filter (groupSel .hap2))
          ∧ r = groupRecord ref k v .hap2)
       ∨ (1 ≤ modCountOf (v.filter (groupSel .total)) + unmodCountOf (v.filter (groupSel .total))
          ∧ r = groupRecord ref k v .total)) := by
  have h1 : v.filter (groupSel .hap1) = v.filter (fun o => o.hap == 1) := rfl
  have h2 : v.filter (groupSel .hap2) = v.filter (fun o => o.hap == 2) := rfl
  rw [position_records, List.mem_append, List.mem_append, mem_ite_singleton,
    mem_ite_singleton, mem_ite_singleton]
  rw [groupRecord, groupRecord, groupRecord, h1, h2, filter_total, or_assoc]
  rfl

lemma groupRecord_label (ref : String) (k : Nat) (v : List Obs) (g : ObsGroup) :
    (groupRecord ref k v g).label = groupLabel g := rfl

lemma position_records_group_iff (ref : String) (k : Nat) (v : List Obs) (g : ObsGroup)
    (r : BedRecord) :
    (r ∈ position_records ref k v ∧ r.label = groupLabel g) ↔
      (1 ≤ modCountOf (v.filter (groupSel g)) + unmodCountOf (v.filter (groupSel g)) ∧
       r = groupRecord ref k v g) := by
  rw [position_records_mem]
  constructor
  · rintro ⟨(⟨hc, he⟩ | ⟨hc, he⟩ | ⟨hc, he⟩), hlab⟩ <;> subst he <;>
      rw [groupRecord_label] at hlab <;> cases g <;>
        first
          | exact ⟨hc, rfl⟩
          | (exfalso; revert hlab; decide)
  · rintro ⟨hc, he⟩
    subst he
    cases g with
    | hap1 => exact ⟨Or.inl ⟨hc, rfl⟩, rfl⟩
    | hap2 => exact ⟨Or.inr (Or.inl ⟨hc, rfl⟩), rfl⟩
    | total => exact ⟨Or.inr (Or.inr ⟨hc, rfl⟩), rfl⟩

/-- The worked example pileup entry `[(+,0.9,1), (+,0.2,1), (-,0.8,0)]`. -/
def exObsC5 : List Obs := [⟨'+', 9 / 10, 1⟩, ⟨'+', 2 / 10, 1⟩, ⟨'-', 8 / 10, 0⟩]

unseal Rat.mul Rat.inv Rat.add Rat.sub in
/-- C5: for every retained position and every group (hap1, hap2, Total),
with `mod`/`unmod` the counts of observations with probability above /
at most 0.5 in the group's sub-frame, a record is emitted iff
`mod + unmod ≥ 1`, its `percent_modified` is `0` when `mod = 0` and
`round(100·mod/(mod+unmod), 1)` otherwise; the worked example yields
hap1 `50.0` (1/1) and Total `66.7` (2/1). -/
theorem c5_count_aggregator :
    (∀ (ref : String) (k : Nat) (v : List Obs) (g : ObsGroup),
       (∃ r ∈ position_records ref k v, r.label = groupLabel g) ↔
         1 ≤ modCountOf (v.filter (groupSel g)) + unmodCountOf (v.filter (groupSel g)))
    ∧ (∀ (ref : String) (k : Nat) (v : List Obs) (g : ObsGroup) (r : BedRecord),
       r ∈ position_records ref k v → r.label = groupLabel g →
       r.percent = (if modCountOf (v.filter (groupSel g)) = 0 then 0
         else pyRound ((100 * (modCountOf (v.filter (groupSel g)) : ℚ)) /
           ((modCountOf (v.filter (groupSel g)) : ℚ) +
            (unmodCountOf (v.filter (groupSel g)) : ℚ))) 1))
    ∧ (∀ (ref : String) (d : List (Nat × List Obs)), collect_bed_results_count ref d =
        (sortItems d).flatMap (fun kv => position_records ref kv.1 kv.2))
    ∧ position_records "r" 10 exObsC5 =
        [⟨"r", 10, 11, 50, "hap1", 2, 1, 1, some (9 / 10), some (1 / 5)⟩,
         ⟨"r", 10, 11, 667 / 10, "Total", 3, 2, 1, some (17 / 20), some (1 / 5)⟩] := by
  refine ⟨?_, ?_, fun ref d => rfl, ?_⟩
  · intro ref k v g
    constructor
    · rintro ⟨r, hmem, hlab⟩
      exact ((position_records_group_iff ref k v g r).mp ⟨hmem, hlab⟩).1
    · intro hc
      obtain ⟨hm, hl⟩ :=
        (position_records_group_iff ref k v g (groupRecord ref k v g)).mpr ⟨hc, rfl⟩
      exact ⟨groupRecord ref k v g, hm, hl⟩
  · intro ref k v g r hmem hlab
    obtain ⟨hc, he⟩ := (position_records_group_iff ref k v g r).mp ⟨hmem, hlab⟩
    subst he
    show (calc_stats (v.filter (groupSel g))).1 = _
    have hcs : (calc_stats (v.filter (groupSel g))).1 =
        if modCountOf (v.filter (groupSel g)) = 0 then 0
        else pyRound (((modCountOf (v.filter (groupSel g)) : ℚ) /
          ((v.filter (groupSel g)).length : ℚ)) * 100) 1 := rfl
    rw [hcs]
    by_cases hm : modCountOf (v.filter (groupSel g)) = 0
    · rw [if_pos hm, if_pos hm]
    · rw [if_neg hm, if_neg hm]
      congr 1
      rw [length_mod_unmod (v.filter (groupSel g))]
      push_cast
      ring
  · decide

unseal Rat.mul Rat.inv Rat.add Rat.sub in
theorem c5_count_aggregator_witness :
    ∃ r ∈ position_records "r" 10 exObsC5, r.label = groupLabel ObsGroup.hap1 :=
  (c5_count_aggregator.1 "r" 10 exObsC5 ObsGroup.hap1).mpr (by decide)

/-- The shape of the chunk lists produced by the `while` loop of
`get_regions_to_process` from a cursor `s < length`: either the loop is on
its final iteration (the region is truncated to `length`) or it emits a
full chunk of size `chunksize` and continues from `s + chunksize`. -/
inductive ChunkCov (C length : Nat) : Nat → List (Nat × Nat) → Prop
  | last (s : Nat) : s < length → length ≤ s + C → ChunkCov C length s [(s, length)]
  | step (s : Nat) (l : List (Nat × Nat)) : s + C < length → ChunkCov C length (s + C) l →
      ChunkCov C length s ((s, s + C - 1) :: l)

lemma chunk_loop_stop (C length : Nat) (fuel s : Nat) (h : ¬ s < length) :
    chunk_loop C length fuel s = [] := by
  cases fuel with
  | zero => rfl
  | succ n => rw [chunk_loop, if_neg h]

lemma chunk_loop_cov (C length : Nat) (hC : 1 ≤ C) :
    ∀ (fuel s : Nat), s < length → length ≤ s + fuel →
      ChunkCov C length s (chunk_loop C length fuel s) := by
  intro fuel
  induction fuel with
  | zero => intro s hs hf; omega
  | succ n ih =>
    intro s hs hf
    rw [chunk_loop, if_pos hs]
    by_cases he : s + C < length
    · rw [if_pos he]
      exact ChunkCov.step s _ he (ih (s + C) he (by omega))
    · rw [if_neg he, chunk_loop_stop C length n (s + C) (by omega)]
      exact ChunkCov.last s hs (by omega)

lemma chunkCov_ne_nil {C length s : Nat} {l : List (Nat × Nat)}
    (h : ChunkCov C length s l) : l ≠ [] := by
  cases h <;> simp

lemma chunkCov_start_le {C length s : Nat} {l : List (Nat × Nat)}
    (h : ChunkCov C length s l) : ∀ r ∈ l, s ≤ r.1 := by
  induction h with
  | last t _ _ =>
    intro r hr
    rw [List.mem_singleton] at hr
    subst hr
    exact Nat.le_refl t
  | step t l _ _ ih =>
    intro r hr
    rcases List.mem_cons.mp hr with he | hm
    · subst he; exact Nat.le_refl t
    · have := ih r hm; omega

lemma chunkCov_head {C length s : Nat} {l : List (Nat × Nat)}
    (h : ChunkCov C length s l) : l.head?.map Prod.fst = some s := by
  cases h <;> rfl

lemma chunkCov_last_end {C length s : Nat} {l : List (Nat × Nat)}
    (h : ChunkCov C length s l) : l.getLast?.map Prod.snd = some length := by
  induction h with
  | last t h1 h2 => rfl
  | step t l hlt hcov ih =>
    cases hgl : l.getLast? with
    | none => rw [hgl] at ih; cases ih
    | some e =>
      rw [hgl] at ih
      rw [List.getLast?_cons, hgl]
      exact ih

lemma chunkCov_pairwise {C length s : Nat} {l : List (Nat × Nat)} (hC : 1 ≤ C)
    (h : ChunkCov C length s l) : l.Pairwise (fun a b => a.2 < b.1) := by
  induction h with
  | last t _ _ => exact List.pairwise_singleton _ _
  | step t l hlt hcov ih =>
    refine List.pairwise_cons.mpr ⟨?_, ih⟩
    intro r hr
    have := chunkCov_start_le hcov r hr
    omega

lemma chunkCov_sizes {C length s : Nat} {l : List (Nat × Nat)} (hC : 1 ≤ C)
    (h : ChunkCov C length s l) : ∀ r ∈ l, r.1 ≤ r.2 ∧ r.2 + 1 - r.1 ≤ C + 1 := by
  induction h with
  | last t h1 h2 =>
    intro r hr
    rw [List.mem_singleton] at hr
    subst hr
    constructor <;> simp <;> omega
  | step t l hlt _ ih =>
    intro r hr
    rcases List.mem_cons.mp hr with he | hm
    · subst he
      constructor <;> simp <;> omega
    · exact ih r hm

lemma chunkCov_nonfinal_sizes {C length s : Nat} {l : List (Nat × Nat)} (hC : 1 ≤ C)
    (h : ChunkCov C length s l) : ∀ r ∈ l.dropLast, r.2 + 1 - r.1 = C := by
  induction h with
  | last t _ _ =>
    intro r hr
    simp at hr
  | step t l hlt hcov ih =>
    intro r hr
    rw [List.dropLast_cons_of_ne_nil (chunkCov_ne_nil hcov)] at hr
    rcases List.mem_cons.mp hr with he | hm
    · subst he
      simp
      omega
    · exact ih r hm

lemma chunkCov_coverage {C length s : Nat} {l : List (Nat × Nat)} (hC : 1 ≤ C)
    (h : ChunkCov C length s l) :
    ∀ p, (s ≤ p ∧ p ≤ length) ↔ ∃ r ∈ l, r.1 ≤ p ∧ p ≤ r.2 := by
  induction h with
  | last t h1 h2 =>
    intro p
    constructor
    · rintro ⟨hp1, hp2⟩
      exact ⟨(t, length), List.mem_singleton_self _, hp1, hp2⟩
    · rintro ⟨r, hr, hp1, hp2⟩
      rw [List.mem_singleton] at hr
      subst hr
      exact ⟨hp1, hp2⟩
  | step t l hlt hcov ih =>
    intro p
    constructor
    · rintro ⟨hp1, hp2⟩
      by_cases hc : p ≤ t + C - 1
      · exact ⟨(t, t + C - 1), List.mem_cons_self _ _, hp1, hc⟩
      · obtain ⟨r, hr, hrp⟩ := (ih p).mp ⟨by omega, hp2⟩
        exact ⟨r, List.mem_cons_of_mem _ hr, hrp⟩
    · rintro ⟨r, hr, hp1, hp2⟩
      rcases List.mem_cons.mp hr with he | hm
      · subst he
        simp only at hp1 hp2
        omega
      · have := (ih p).mpr ⟨r, hm, hp1, hp2⟩
        constructor <;> omega

/-- C2 counterexample: the claim as stated fails on the code.  For chunk
size 2 a contig of length 3 yields the single Region `[1, 3]` of size
`3 > C` (the final chunk is not limited to size `C` when
`start + chunksize = length`), and a contig of length 1 yields no Region
at all (the loop guard `start < length` never fires), so `[1, 1]` is not
covered even though `length ≥ 1`. -/
theorem c2_region_chunker_counterexample :
    get_regions_to_process 2 [("chr1", 3)] = [("chr1", 1, 3)] ∧
    ¬ ((3 : Nat) - 1 + 1 ≤ 2) ∧
    get_regions_to_process 5 [("chr1", 1)] = [] := by
  refine ⟨by decide, by decide, by decide⟩

/-- C2 (amended): for every reference length at least 2 and positive
chunk size `C`, the emitted Regions exactly cover `[1, length]` —
non-empty, starting at 1, ending at `length` (the final chunk truncated to
the sequence length), pairwise disjoint and in increasing order, jointly
covering exactly the points of `[1, length]` — with every Region of size
at most `C + 1`, every non-final Region of size exactly `C`, and a
reference of length 1 yields no Regions. -/
theorem c2_region_chunker_amended (C length : Nat) (hC : 1 ≤ C) (hL : 2 ≤ length) :
    chunk_ref C length ≠ [] ∧
    (chunk_ref C length).head?.map Prod.fst = some 1 ∧
    (chunk_ref C length).getLast?.map Prod.snd = some length ∧
    (chunk_ref C length).Pairwise (fun a b => a.2 < b.1) ∧
    (∀ p, (1 ≤ p ∧ p ≤ length) ↔ ∃ r ∈ chunk_ref C length, r.1 ≤ p ∧ p ≤ r.2) ∧
    (∀ r ∈ chunk_ref C length, r.1 ≤ r.2 ∧ r.2 + 1 - r.1 ≤ C + 1) ∧
    (∀ r ∈ (chunk_ref C length).dropLast, r.2 + 1 - r.1 = C) ∧
    (∀ C' : Nat, chunk_ref C' 1 = []) ∧
    (∀ name : String, get_regions_to_process C [(name, length)] =
      (chunk_ref C length).map (fun se => (name, se.1, se.2))) := by
  have hcov : ChunkCov C length 1 (chunk_ref C length) :=
    chunk_loop_cov C length hC length 1 (by omega) (by omega)
  exact ⟨chunkCov_ne_nil hcov, chunkCov_head hcov, chunkCov_last_end hcov,
    chunkCov_pairwise hC hcov, chunkCov_coverage hC hcov, chunkCov_sizes hC hcov,
    chunkCov_nonfinal_sizes hC hcov,
    fun C' => chunk_loop_stop C' 1 1 1 (by omega),
    fun name => by simp [get_regions_to_process]⟩

theorem c2_region_chunker_amended_witness :
    (chunk_ref 2 5).getLast?.map Prod.snd = some 5 :=
  (c2_region_chunker_amended 2 5 (by decide) (by decide)).2.2.1

/-- The single-record region used to exhibit the `len(bed_results) > 1`
drop: one position covered by one unphased observation yields exactly one
(Total) record. -/
def exDictC6 : List (Nat × List Obs) := [(5, [⟨'+', 9 / 10, 0⟩])]

unseal Rat.mul Rat.inv Rat.add Rat.sub in
/-- C6 counterexample: the claim as stated fails on the code.  A region
whose aggregator emits exactly one SiteRecord is not merely non-empty —
yet `run_process_region` returns `None` for it (`len(bed_results) > 1`),
so its record is missing from the merged output. -/
theorem c6_result_merger_counterexample :
    collect_bed_results_count "r" exDictC6 =
      [⟨"r", 5, 6, 100, "Total", 1, 1, 0, some (9 / 10), none⟩] ∧
    run_process_region "r" exDictC6 = none ∧
    run_all_pileup_processing [run_process_region "r" exDictC6] = [] := by
  refine ⟨by decide, by decide, ?_⟩
  have h : run_process_region "r" exDictC6 = none := by decide
  rw [h]
  simp [run_all_pileup_processing]

lemma recLE_iff (a b : BedRecord) :
    recLE a b = true ↔ (a.ref < b.ref ∨ (a.ref = b.ref ∧ a.start ≤ b.start)) := by
  simp [recLE]

lemma recLE_trans (a b c : BedRecord) (h1 : recLE a b = true) (h2 : recLE b c = true) :
    recLE a c = true := by
  rw [recLE_iff] at h1 h2 ⊢
  rcases h1 with h1 | ⟨h1e, h1s⟩ <;> rcases h2 with h2 | ⟨h2e, h2s⟩
  · exact Or.inl (lt_trans h1 h2)
  · exact Or.inl (h2e ▸ h1)
  · exact Or.inl (h1e ▸ h2)
  · exact Or.inr ⟨h1e.trans h2e, le_trans h1s h2s⟩

lemma recLE_total (a b : BedRecord) : (recLE a b || recLE b a) = true := by
  rw [Bool.or_eq_true, recLE_iff, recLE_iff]
  rcases lt_trichotomy a.ref b.ref with h | h | h
  · exact Or.inl (Or.inl h)
  · rcases Nat.le_total a.start b.start with hs | hs
    · exact Or.inl (Or.inr ⟨h, hs⟩)
    · exact Or.inr (Or.inr ⟨h.symm, hs⟩)
  · exact Or.inr (Or.inl h)

/-- C6 (amended): `run_process_region` reports `None` — and the merged
output therefore omits the region's records — whenever the aggregator
emitted at most one record; a region whose aggregator emits at least two
SiteRecords has all of them returned and included in the merged output,
which is always sorted by `(reference name, start)`. -/
theorem c6_result_merger_amended (tasks : List (String × List (Nat × List Obs))) :
    (∀ t ∈ tasks, 2 ≤ (collect_bed_results_count t.1 t.2).length →
       ∀ rec ∈ collect_bed_results_count t.1 t.2,
         rec ∈ run_all_pileup_processing
           (tasks.map (fun u => run_process_region u.1 u.2)))
    ∧ (∀ (ref : String) (d : List (Nat × List Obs)),
        (collect_bed_results_count ref d).length ≤ 1 → run_process_region ref d = none)
    ∧ (run_all_pileup_processing
        (tasks.map (fun u => run_process_region u.1 u.2))).Pairwise
          (fun a b => recLE a b = true) := by
  refine ⟨?_, ?_, ?_⟩
  · intro t ht h2 rec hrec
    rw [run_all_pileup_processing]
    rw [List.mem_mergeSort, List.mem_flatten]
    refine ⟨collect_bed_results_count t.1 t.2, ?_, hrec⟩
    refine List.mem_filterMap.mpr ⟨some (collect_bed_results_count t.1 t.2), ?_, ?_⟩
    · refine List.mem_map.mpr ⟨t, ht, ?_⟩
      rw [run_process_region, if_pos (by omega)]
    · show (if (collect_bed_results_count t.1 t.2).isEmpty = true then none
          else some (collect_bed_results_count t.1 t.2)) =
          some (collect_bed_results_count t.1 t.2)
      rw [if_neg (by
        rw [List.isEmpty_iff]
        intro hcon
        rw [hcon] at h2
        simp at h2)]
  · intro ref d h1
    rw [run_process_region, if_neg (by omega)]
  · exact List.sorted_mergeSort recLE_trans recLE_total _

unseal Rat.mul Rat.inv Rat.add Rat.sub in
theorem c6_result_merger_amended_witness :
    ⟨"r", 10, 11, 50, "hap1", 2, 1, 1, some (9 / 10), some (1 / 5)⟩ ∈
      run_all_pileup_processing
        ([("r", [(10, exObsC5)])].map (fun u => run_process_region u.1 u.2)) :=
  (c6_result_merger_amended [("r", [(10, exObsC5)])]).1 ("r", [(10, exObsC5)])
    (by decide) (by decide) _ (by decide)

/-- Select one group's feature list from the (Total, hap1, hap2) triple. -/
def featsOf : ObsGroup → List Feat × List Feat × List Feat → List Feat
  | .total, t => t.1
  | .hap1, t => t.2.1
  | .hap2, t => t.2.2

lemma featsOf_model (g : ObsGroup) (d : List (Nat × List Obs)) :
    featsOf g (model_feats d) = collect_model_feats (groupSel g) 0 (sortItems d) := by
  cases g <;> rfl

lemma collect_model_feats_mem {sel : Obs → Bool} :
    ∀ (prev : Nat) (items : List (Nat × List Obs)) (f : Feat),
      f ∈ collect_model_feats sel prev items →
      ∃ kpv ∈ withPrev prev items,
        f.pos = kpv.1 ∧
        f.adj = (if kpv.1 - kpv.2.1 = 2 then 1 else 0) ∧
        f.cov = (kpv.2.2.filter sel).length ∧ 4 ≤ f.cov ∧
        f.hist = histogram20 ((kpv.2.2.filter sel).map Obs.score) := by
  intro prev items
  induction items generalizing prev with
  | nil => intro f hf; cases hf
  | cons kv rest ih =>
    obtain ⟨k, v⟩ := kv
    intro f hf
    simp only [collect_model_feats] at hf
    rcases List.mem_append.mp hf with hm | hm
    · revert hm
      cases hg : get_normalized_histo (v.filter sel) (if k - prev = 2 then 1 else 0) with
      | none => intro hm; cases hm
      | some hc =>
        intro hm
        rw [List.mem_singleton] at hm
        subst hm
        rw [get_normalized_histo] at hg
        split at hg
        · cases hg
          exact ⟨(k, prev, v), List.mem_cons_self _ _, rfl, rfl, rfl, by assumption, rfl⟩
        · cases hg
    · obtain ⟨kpv, hkpv, hrest⟩ := ih k f hm
      exact ⟨kpv, List.mem_cons_of_mem _ hkpv, hrest⟩

/-- The filtered dict used to refute the group-relative reading of the
adjacency flag: position 3 carries a single unphased observation (so no
group keeps it: coverage 1 < 4), position 5 carries four hap1
observations. -/
def exDictC7 : List (Nat × List Obs) :=
  [(3, [⟨'+', 9 / 10, 0⟩]),
   (5, [⟨'+', 9 / 10, 1⟩, ⟨'+', 9 / 10, 1⟩, ⟨'-', 2 / 10, 1⟩, ⟨'+', 6 / 10, 1⟩])]

unseal Rat.mul Rat.inv Rat.add Rat.sub in
/-- C7 counterexample: the claim as stated fails on the code.  In the
hap1 group the only feature row sits at position 5 and its 21st element
is 1, although hap1's ordered position sequence contains no feature 2
bases earlier (none at position 3): the flag was set by the position-3
entry of the *overall* filtered dict, which qualifies for no group. -/
theorem c7_adjacency_counterexample :
    ((model_feats exDictC7).2.1).map (fun f => (f.pos, f.adj)) = [(5, 1)] ∧
    (model_feats exDictC7).2.1.filter (fun f => f.pos + 2 == 5) = [] := by
  exact ⟨by decide, by decide⟩

/-- C7 (amended): for every group, each feature row of
`collect_bed_results_model` comes from an entry of the sorted filtered
dict with at least 4 observations in that group, and its 21st element is
1 exactly when the *immediately preceding position of the overall sorted
filtered dict* (taken as 0 before the first entry, regardless of group
membership or coverage) is exactly 2 reference bases earlier. -/
theorem c7_adjacency_amended :
    ∀ (d : List (Nat × List Obs)) (g : ObsGroup) (f : Feat),
      f ∈ featsOf g (model_feats d) →
      ∃ kpv ∈ withPrev 0 (sortItems d),
        f.pos = kpv.1 ∧
        f.adj = (if kpv.1 - kpv.2.1 = 2 then 1 else 0) ∧
        f.cov = (kpv.2.2.filter (groupSel g)).length ∧ 4 ≤ f.cov := by
  intro d g f hf
  rw [featsOf_model] at hf
  obtain ⟨kpv, h1, h2, h3, h4, h5, _⟩ := collect_model_feats_mem 0 (sortItems d) f hf
  exact ⟨kpv, h1, h2, h3, h4, h5⟩

unseal Rat.mul Rat.inv Rat.add Rat.sub in
theorem c7_adjacency_amended_witness :
    ∃ kpv ∈ withPrev 0 (sortItems exDictC7),
      (⟨5, [0, 0, 0, 0, 1, 0, 0, 0, 0, 0, 0, 0, 1, 0, 0, 0, 0, 0, 2, 0], 4, 1⟩ : Feat).pos
          = kpv.1 ∧
      (⟨5, [0, 0, 0, 0, 1, 0, 0, 0, 0, 0, 0, 0, 1, 0, 0, 0, 0, 0, 2, 0], 4, 1⟩ : Feat).adj
          = (if kpv.1 - kpv.2.1 = 2 then 1 else 0) ∧
      (⟨5, [0, 0, 0, 0, 1, 0, 0, 0, 0, 0, 0, 0, 1, 0, 0, 0, 0, 0, 2, 0], 4, 1⟩ : Feat).cov
          = (kpv.2.2.filter (groupSel ObsGroup.hap1)).length ∧
      4 ≤ (⟨5, [0, 0, 0, 0, 1, 0, 0, 0, 0, 0, 0, 0, 1, 0, 0, 0, 0, 0, 2, 0], 4, 1⟩ : Feat).cov :=
  c7_adjacency_amended exDictC7 ObsGroup.hap1 _ (by decide)

lemma parse_mmtag_no_channel (query_seq mmtag : List Char) (base : Char) (reverse : Bool)
    (h : ∀ s ∈ splitOnChar ';' mmtag, ¬ ((['C', '+', 'm'] : List Char).isPrefixOf s = true)) :
    parse_mmtag query_seq mmtag ['C', '+', 'm'] base reverse = some [] := by
  have hf : (splitOnChar ';' mmtag).filter
      (fun x => (['C', '+', 'm'] : List Char).isPrefixOf x) = [] :=
    List.filter_eq_nil_iff.mpr (fun s hs => h s hs)
  simp only [parse_mmtag, hf, List.map_nil]

/-- A read carrying only a `C+h` channel: no `C+m` channel matches, the
decoded mapping is empty, and the read still contributes probability-0
observations with no warning. -/
def rNoCmC9 : Read :=
  { query_sequence := List.replicate 41 'C'
    is_reverse := false
    mapping_quality := 60
    hapTag := none
    mmtag := some ['C', '+', 'h', ',', '5', ';']
    mltag := some [204]
    aligned_pairs := (List.range 41).map (fun i => (i, 100 + i)) }

/-- A read with the interleaved channel code `C+mh`: it starts with
`C+m`, so it is selected, and its payload fails integer parsing. -/
def rInterC9 : Read :=
  { query_sequence := List.replicate 41 'C'
    is_reverse := false
    mapping_quality := 60
    hapTag := none
    mmtag := some ['C', '+', 'm', 'h', ',', '5', ',', '1', '2', ';']
    mltag := some [204, 26]
    aligned_pairs := (List.range 41).map (fun i => (i, 100 + i)) }

unseal Rat.mul Rat.inv Rat.add Rat.sub in
/-- C9 counterexample: the claim as stated fails on the code.  A read
whose Mm tag carries only a `C+h` channel is decoded to an empty mapping
with *no* logged warning, and its calls are still converted into
probability-0 observations; a read with the interleaved code `C+mh` is
selected by the `startswith` test and crashes integer parsing, aborting
the region task — also without a warning. -/
theorem c9_channel_handling_counterexample :
    pileup_from_reads 100 200 0 [rNoCmC9] = some [(120, ⟨'+', 0, 0⟩)] ∧
    pileup_warnings 0 [rNoCmC9] = [] ∧
    pileup_from_reads 100 200 0 [rInterC9] = none ∧
    pileup_warnings 0 [rInterC9] = [] := by
  exact ⟨by decide, by decide, by decide, by decide⟩

/-- C9 (amended): only reads missing the Mm/Ml tag pair entirely are
skipped with a logged warning.  A read whose Mm tag has no channel whose
code starts with `C+m` is not warned about: its modification indices
decode to the empty mapping, and all of its retained positions contribute
observations with probability 0.  (A tag with an interleaved channel code
extending `C+m`, e.g. `C+mh`, is instead selected by the `startswith`
test and aborts the region task with an uncaught parse error, as the
counterexample shows.) -/
theorem c9_channel_handling_amended :
    (∀ (query_seq mmtag : List Char) (base : Char) (reverse : Bool),
       (∀ s ∈ splitOnChar ';' mmtag, ¬ ((['C', '+', 'm'] : List Char).isPrefixOf s = true)) →
       parse_mmtag query_seq mmtag ['C', '+', 'm'] base reverse = some [])
    ∧ (∀ (ps pe mq : Nat) (r : Read) (mm : List Char) (ml : List Nat),
       r.mmtag = some mm → r.mltag = some ml →
       (∀ s ∈ splitOnChar ';' mm, ¬ ((['C', '+', 'm'] : List Char).isPrefixOf s = true)) →
       read_flagged mq r = false ∧
       ∃ evs, processRead ps pe mq r = some evs ∧ ∀ e ∈ evs, e.2.score = 0) := by
  refine ⟨parse_mmtag_no_channel, ?_⟩
  intro ps pe mq r mm ml hmm hml hch
  refine ⟨by simp [read_flagged, hmm, hml], ?_⟩
  have hmd : get_mod_dict r.query_sequence mm ['C', '+', 'm'] 'C' ml r.is_reverse =
      some [] := by
    rw [get_mod_dict, parse_mmtag_no_channel r.query_sequence mm 'C' r.is_reverse hch]
    rfl
  by_cases hq : r.mapping_quality < mq
  · refine ⟨[], ?_, fun e he => absurd he (List.not_mem_nil e)⟩
    unfold processRead
    rw [if_pos hq]
  · have hpr : processRead ps pe mq r = some
        (((r.aligned_pairs.drop 20).take (r.aligned_pairs.length - 40)).filterMap
          (fun qr => if ps ≤ qr.2 ∧ qr.2 ≤ pe then
            some (qr.2, (⟨(strand_location r qr.1).1,
              lookupScore [] (strand_location r qr.1).2, r.hapTag.getD 0⟩ : Obs))
          else none)) := by
      unfold processRead
      rw [if_neg hq]
      simp only [hmm, hml, hmd]
    refine ⟨_, hpr, ?_⟩
    intro e he
    obtain ⟨qr, _, hf⟩ := List.mem_filterMap.mp he
    split at hf
    · cases hf
      rfl
    · cases hf

unseal Rat.mul Rat.inv Rat.add Rat.sub in
theorem c9_channel_handling_amended_witness :
    read_flagged 0 rNoCmC9 = false ∧
    ∃ evs, processRead 100 200 0 rNoCmC9 = some evs ∧ ∀ e ∈ evs, e.2.score = 0 :=
  c9_channel_handling_amended.2 100 200 0 rNoCmC9 ['C', '+', 'h', ',', '5', ';'] [204]
    (by decide) (by decide) (by decide)
